import Mathlib

/-!
Verification of the HeyTea-DIY-Toolkit image pipeline
(`src/utils/image.ts`-style core module plus its config constants).

The module converts a decoded raster image into a fixed-size, printable,
size-budgeted encoded blob.  This file shallowly embeds the pipeline:

* machine numbers: pixel channel bytes are `ℕ` (a `Uint8ClampedArray` cell
  holds `0..255`), JavaScript `number` arithmetic on them is modelled as
  exact rational arithmetic over `ℚ` (all literals appearing in the source,
  `0.299`, `0.587`, `0.114`, `0.05`-stepped qualities, are exact decimal
  fractions), `Math.round`/`Math.floor` become `Int.floor`-based functions;
* an `ImageData` buffer is a flat row-major RGBA `List ℕ`
  (invariant: length = 4 * width * height), a `Uint16Array` pattern is a
  `List ℕ`; a JS typed-array write (which ignores out-of-bounds indices) is
  `List.set`, a read is `List.getD _ 0`;
* the external canvas encoder `canvas.toBlob` (spec §6: a black-box
  collaborator `encode(buffer, type, quality?) -> bytes?`) is modelled as an
  oracle function returning `Option ℕ` — the byte size of the produced blob,
  `none` when the encoder produced nothing; a `Blob` is identified with its
  size, the only attribute the pipeline inspects;
* thrown `Error`s become an explicit `RenderError` sum type.
-/

/-! ### Configuration constants (`config/heytea.ts`) -/

def CUP_WIDTH : ℕ := 596

def CUP_HEIGHT : ℕ := 832

def MAX_UPLOAD_BYTES : ℕ := 200 * 1024

/-- JavaScript `Math.round`: round half toward positive infinity,
`Math.round x = ⌊x + 1/2⌋`. -/
def jsRound (q : ℚ) : ℤ := ⌊q + 1/2⌋

/-! ### Pixels and flat RGBA buffers -/

/-- One RGBA pixel (each channel a byte `0..255` in real buffers). -/
structure Px where
  r : ℕ
  g : ℕ
  b : ℕ
  a : ℕ
deriving DecidableEq

/-- Flatten a pixel list into the row-major RGBA byte layout of an
`ImageData.data` array. -/
def flatPx : List Px → List ℕ
  | [] => []
  | p :: ps => p.r :: p.g :: p.b :: p.a :: flatPx ps

/-- The luminance expression `data[i]*0.299 + data[i+1]*0.587 + data[i+2]*0.114`
used by both tone mappers. -/
def luminance (r g b : ℕ) : ℚ := (r : ℚ) * 0.299 + (g : ℚ) * 0.587 + (b : ℚ) * 0.114

/-- `Math.max(0, Math.min(255, Math.round(threshold)))` — the clamped
threshold `limit` computed by `applyBinaryThreshold` and
`applySampledMonochrome`. -/
def limitOf (threshold : ℚ) : ℕ := (max 0 (min 255 (jsRound threshold))).toNat

/-- Body of the `for (i = 0; i < data.length; i += 4)` loop of
`applyBinaryThreshold`: process the buffer in RGBA strides.  (`ImageData`
guarantees the length is a multiple of 4; a shorter leftover tail, which the
source could only reach on a malformed buffer, is left unchanged.) -/
def applyBinaryThresholdGo (limit : ℕ) : List ℕ → List ℕ
  | r :: g :: b :: a :: rest =>
    let gray := luminance r g b
    let value : ℕ := if (limit : ℚ) ≤ gray then 255 else 0
    value :: value :: value :: a :: applyBinaryThresholdGo limit rest
  | other => other

/-- `applyBinaryThreshold(imageData, threshold)` (source default
`threshold = 170`). -/
def applyBinaryThreshold (data : List ℕ) (threshold : ℚ) : List ℕ :=
  applyBinaryThresholdGo (limitOf threshold) data

/-- One channel of `quantizeColors`:
`Math.min(255, Math.round(data[i] / divisor) * divisor)`. -/
def quantChan (divisor v : ℕ) : ℕ :=
  min 255 ((jsRound ((v : ℚ) / (divisor : ℚ))).toNat * divisor)

/-- Stride-4 loop of `quantizeColors`: quantize r, g, b, leave alpha. -/
def quantizeColorsGo (divisor : ℕ) : List ℕ → List ℕ
  | r :: g :: b :: a :: rest =>
    quantChan divisor r :: quantChan divisor g :: quantChan divisor b :: a ::
      quantizeColorsGo divisor rest
  | other => other

/-- `quantizeColors(data, step)` with
`const divisor = step <= 0 ? 1 : step` (for `step : ℕ`, `step ≤ 0` is
`step = 0`). -/
def quantizeColors (data : List ℕ) (step : ℕ) : List ℕ :=
  quantizeColorsGo (if step = 0 then 1 else step) data

/-! ### Geometry fitter (renderToCupCanvas, scale/offset computation) -/

inductive Fit where
  | contain
  | cover
deriving DecidableEq

structure FitResult where
  scale : ℚ
  drawWidth : ℚ
  drawHeight : ℚ
  offsetX : ℚ
  offsetY : ℚ
deriving DecidableEq

/-- The geometry portion of `renderToCupCanvas` (scale, draw size, centering
offsets) for a source image of size `w × h`. -/
def fitGeometry (fit : Fit) (w h : ℚ) : FitResult :=
  let scale :=
    if fit = Fit.cover then max ((CUP_WIDTH : ℚ) / w) ((CUP_HEIGHT : ℚ) / h)
    else min ((CUP_WIDTH : ℚ) / w) ((CUP_HEIGHT : ℚ) / h)
  let drawWidth := w * scale
  let drawHeight := h * scale
  FitResult.mk scale drawWidth drawHeight
    (((CUP_WIDTH : ℚ) - drawWidth) / 2) (((CUP_HEIGHT : ℚ) - drawHeight) / 2)

/-! ### Size-constrained encoders -/

/-- One entry of the `attempts` array of `exportWithCompression`. -/
structure Attempt where
  mime : String
  quality : Option ℚ
deriving DecidableEq

/-- The fixed `attempts` ladder of `exportWithCompression`. -/
def lossyAttempts : List Attempt :=
  [Attempt.mk "image/png" none,
   Attempt.mk "image/jpeg" (some 0.95),
   Attempt.mk "image/jpeg" (some 0.9),
   Attempt.mk "image/jpeg" (some 0.85),
   Attempt.mk "image/jpeg" (some 0.8),
   Attempt.mk "image/jpeg" (some 0.75),
   Attempt.mk "image/jpeg" (some 0.7),
   Attempt.mk "image/jpeg" (some 0.65),
   Attempt.mk "image/jpeg" (some 0.6),
   Attempt.mk "image/jpeg" (some 0.55),
   Attempt.mk "image/jpeg" (some 0.5),
   Attempt.mk "image/jpeg" (some 0.45),
   Attempt.mk "image/jpeg" (some 0.4),
   Attempt.mk "image/jpeg" (some 0.35),
   Attempt.mk "image/jpeg" (some 0.3)]

/-- Errors thrown by the pipeline (`throw new Error(...)` sites). -/
inductive RenderError where
  /-- `'当前浏览器不支持 Canvas'` — drawing surface unavailable. -/
  | unsupportedSurface
  /-- `'无法导出图片'` — no encoder attempt produced any blob. -/
  | encodeExhausted
  /-- `` `PNG 压缩后仍超过 ...KB` `` — carries `Math.round(maxBytes / 1024)`,
  the budget in KB reported in the message. -/
  | budgetUnattainable (kb : ℤ)
deriving DecidableEq

/-- The `for (const attempt of attempts)` loop of `exportWithCompression`,
with the running `candidate` (last successfully produced blob, `null` at
entry) made explicit.  `encode type quality` is the `canvasToBlob` oracle. -/
def exportLoop (encode : String → Option ℚ → Option ℕ) (maxBytes : ℕ) :
    List Attempt → Option ℕ → Except RenderError ℕ
  | [], none => Except.error RenderError.encodeExhausted
  | [], some c => Except.ok c
  | a :: rest, candidate =>
    match encode a.mime a.quality with
    | none => exportLoop encode maxBytes rest candidate
    | some blob =>
      if blob ≤ maxBytes then Except.ok blob
      else exportLoop encode maxBytes rest (some blob)

/-- `exportWithCompression(canvas, maxBytes)`; the canvas is abstracted into
the `canvasToBlob` oracle `encode`. -/
def exportWithCompression (encode : String → Option ℚ → Option ℕ) (maxBytes : ℕ) :
    Except RenderError ℕ :=
  exportLoop encode maxBytes lossyAttempts none

/-- The fixed `steps` ladder of `exportPngWithQuantization`. -/
def quantSteps : List ℕ := [0, 8, 16, 24, 32, 40, 48, 64, 80, 96, 112, 128, 160, 192]

/-- The `for (const step of steps)` loop of `exportPngWithQuantization` with
the running `fallback` made explicit, including the final
`fallback && fallback.size <= maxBytes ? fallback : null`.
`encode step` is the size of the png blob the canvas encoder produces for the
base image quantized at `step` (the `putImageData` + `canvasToBlob` pair). -/
def pngLoop (encode : ℕ → Option ℕ) (maxBytes : ℕ) : List ℕ → Option ℕ → Option ℕ
  | [], fallback =>
    match fallback with
    | some f => if f ≤ maxBytes then some f else none
    | none => none
  | s :: rest, fallback =>
    match encode s with
    | none => pngLoop encode maxBytes rest fallback
    | some blob =>
      if blob ≤ maxBytes then some blob
      else pngLoop encode maxBytes rest (some blob)

/-- `exportPngWithQuantization(ctx, baseImageData, maxBytes)`. -/
def exportPngWithQuantization (encode : ℕ → Option ℕ) (maxBytes : ℕ) : Option ℕ :=
  pngLoop encode maxBytes quantSteps none

inductive TargetFormat where
  | png
  | auto
deriving DecidableEq

/-- The encode phase of `renderToCupCanvas` (lines 80-91): budget
resolution, strategy selection by `targetFormat`, and the error thrown when
the lossless ladder fails.  `encodePng` and `canvasToBlob` are the two
encoder oracles. -/
def renderToCupCanvas (targetFormat : Option TargetFormat) (maxBytesOpt : Option ℕ)
    (encodePng : ℕ → Option ℕ) (canvasToBlob : String → Option ℚ → Option ℕ) :
    Except RenderError ℕ :=
  let maxBytes := maxBytesOpt.getD MAX_UPLOAD_BYTES
  if targetFormat = some TargetFormat.png then
    match exportPngWithQuantization encodePng maxBytes with
    | some blob => Except.ok blob
    | none => Except.error (RenderError.budgetUnattainable (jsRound ((maxBytes : ℚ) / 1024)))
  else
    exportWithCompression canvasToBlob maxBytes

/-- Modelled from the spec (§4.4, lossy ladder): the produced candidates in
ladder order; the first within budget wins, otherwise the last produced
candidate is returned, and only if nothing was produced does the export
fail. -/
def lossySpecExport (encode : String → Option ℚ → Option ℕ) (maxBytes : ℕ) :
    Except RenderError ℕ :=
  let produced := lossyAttempts.filterMap (fun a => encode a.mime a.quality)
  match produced.find? (fun blob => blob ≤ maxBytes) with
  | some blob => Except.ok blob
  | none =>
    match produced.getLast? with
    | some blob => Except.ok blob
    | none => Except.error RenderError.encodeExhausted

/-- Modelled from the spec (§4.4, lossless quantization ladder): the first
produced candidate within budget, `none` otherwise. -/
def pngSpecExport (encode : ℕ → Option ℕ) (maxBytes : ℕ) : Option ℕ :=
  (quantSteps.filterMap encode).find? (fun blob => blob ≤ maxBytes)

/-! ### Encoder loop characterizations -/

lemma getLast?_cons_getD {α : Type} (b : α) (l : List α) :
    (b :: l).getLast? = some ((l.getLast?).getD b) := by
  induction l generalizing b with
  | nil => rfl
  | cons c l ih => rw [List.getLast?_cons_cons, ih c]; simp

/-- `exportWithCompression`'s loop returns the first produced blob within
budget, else the last produced blob, else falls back to the incoming
candidate. -/
lemma exportLoop_eq (encode : String → Option ℚ → Option ℕ) (mb : ℕ)
    (l : List Attempt) (cand : Option ℕ) :
    exportLoop encode mb l cand =
      match (l.filterMap (fun a => encode a.mime a.quality)).find? (fun blob => blob ≤ mb) with
      | some blob => Except.ok blob
      | none =>
        match (l.filterMap (fun a => encode a.mime a.quality)).getLast? with
        | some blob => Except.ok blob
        | none =>
          match cand with
          | some c => Except.ok c
          | none => Except.error RenderError.encodeExhausted := by
  induction l generalizing cand with
  | nil => cases cand <;> rfl
  | cons a l ih =>
    rw [List.filterMap_cons]
    cases h : encode a.mime a.quality with
    | none => simpa [exportLoop, h] using ih cand
    | some blob =>
      by_cases hb : blob ≤ mb
      · simp [exportLoop, h, hb]
      · rw [exportLoop, h]
        simp only [hb, if_false]
        rw [ih (some blob), List.find?_cons_of_neg _ (by simpa using hb), getLast?_cons_getD]
        rcases hf : (l.filterMap (fun a => encode a.mime a.quality)).find?
            (fun blob => blob ≤ mb) with _ | c
        · rcases hg : (l.filterMap (fun a => encode a.mime a.quality)).getLast? with _ | d
          · simp [hf, hg]
          · simp [hf, hg]
        · simp [hf]

/-- `exportPngWithQuantization`'s loop: under the invariant that the running
fallback is over budget, the result is exactly the first produced blob within
budget (the trailing `fallback.size <= maxBytes` check is dead code). -/
lemma pngLoop_eq (encode : ℕ → Option ℕ) (mb : ℕ) (l : List ℕ) (fb : Option ℕ)
    (hfb : ∀ c, fb = some c → mb < c) :
    pngLoop encode mb l fb = (l.filterMap encode).find? (fun blob => blob ≤ mb) := by
  induction l generalizing fb with
  | nil =>
    cases fb with
    | none => rfl
    | some c =>
      have := hfb c rfl
      simp [pngLoop, Nat.not_le_of_lt this]
  | cons s l ih =>
    rw [List.filterMap_cons]
    cases h : encode s with
    | none => simpa [pngLoop, h] using ih fb hfb
    | some blob =>
      by_cases hb : blob ≤ mb
      · simp [pngLoop, h, hb, List.find?]
      · rw [pngLoop, h]
        simp only [hb, if_false]
        rw [ih (some blob) (fun c hc => by cases hc; exact Nat.lt_of_not_le hb)]
        simp [List.find?, hb]

lemma exportWithCompression_eq (encode : String → Option ℚ → Option ℕ) (mb : ℕ) :
    exportWithCompression encode mb = lossySpecExport encode mb := by
  rw [exportWithCompression, exportLoop_eq, lossySpecExport]

lemma exportPngWithQuantization_eq (encode : ℕ → Option ℕ) (mb : ℕ) :
    exportPngWithQuantization encode mb = pngSpecExport encode mb :=
  pngLoop_eq encode mb quantSteps none (fun c hc => by cases hc)

lemma pngSpecExport_le (encode : ℕ → Option ℕ) (mb b : ℕ)
    (h : pngSpecExport encode mb = some b) : b ≤ mb := by
  have := List.find?_some h
  simpa using this

/-- **C2.** In the lossy (non-png `targetFormat`) path, the attempts ladder
is exactly PNG first then JPEG at qualities 0.95 down by 0.05 to 0.30, and
the export returns the first produced blob within budget, else the last
produced blob, and errors only when no attempt produced a blob at all
(refinement of the spec's description of `exportWithCompression`). -/
theorem claim_C2 :
    lossyAttempts =
      Attempt.mk "image/png" none ::
        (List.range 14).map
          (fun i => Attempt.mk "image/jpeg" (some ((95 : ℚ) / 100 - (i : ℚ) * (5 / 100)))) ∧
    ∀ (encode : String → Option ℚ → Option ℕ) (mb : ℕ),
      exportWithCompression encode mb = lossySpecExport encode mb := by
  constructor
  · have hr : List.range 14 = [0, 1, 2, 3, 4, 5, 6, 7, 8, 9, 10, 11, 12, 13] := by decide
    rw [hr]
    norm_num [lossyAttempts, Attempt.mk.injEq]
  · exact exportWithCompression_eq

/-- **C3.** In the lossless (`targetFormat = png`) path: the quantization
ladder is exactly the 14 ascending steps
`0, 8, 16, 24, 32, 40, 48, 64, 80, 96, 112, 128, 160, 192`;
`exportPngWithQuantization` returns exactly the first produced blob within
budget (in particular never an over-budget blob); and when no step's blob
meets the budget, `renderToCupCanvas` throws the error carrying the
configured budget (`Math.round(maxBytes / 1024)` KB). -/
theorem claim_C3 :
    (quantSteps = [0, 8, 16, 24, 32, 40, 48, 64, 80, 96, 112, 128, 160, 192] ∧
      List.Sorted (fun a b : ℕ => a < b) quantSteps) ∧
    (∀ (encode : ℕ → Option ℕ) (mb : ℕ),
      exportPngWithQuantization encode mb = pngSpecExport encode mb) ∧
    (∀ (encode : ℕ → Option ℕ) (mb b : ℕ),
      exportPngWithQuantization encode mb = some b → b ≤ mb) ∧
    (∀ (mbo : Option ℕ) (encodePng : ℕ → Option ℕ)
        (canvasToBlob : String → Option ℚ → Option ℕ),
      exportPngWithQuantization encodePng (mbo.getD MAX_UPLOAD_BYTES) = none →
        renderToCupCanvas (some TargetFormat.png) mbo encodePng canvasToBlob =
          Except.error (RenderError.budgetUnattainable
            (jsRound ((mbo.getD MAX_UPLOAD_BYTES : ℚ) / 1024)))) := by
  refine ⟨⟨rfl, by decide⟩, exportPngWithQuantization_eq, ?_, ?_⟩
  · intro encode mb b h
    rw [exportPngWithQuantization_eq] at h
    exact pngSpecExport_le encode mb b h
  · intro mbo encodePng canvasToBlob h
    simp [renderToCupCanvas, h]

theorem claim_C3_witness :
    exportPngWithQuantization (fun _ => some 1) 5 = some 1 ∧ (1 : ℕ) ≤ 5 ∧
      renderToCupCanvas (some TargetFormat.png) (some 5) (fun _ => none)
          (fun _ _ => none) =
        Except.error (RenderError.budgetUnattainable
          (jsRound (((some 5 : Option ℕ).getD MAX_UPLOAD_BYTES : ℚ) / 1024))) :=
  ⟨rfl, claim_C3.2.2.1 (fun _ => some 1) 5 1 rfl,
    claim_C3.2.2.2 (some 5) (fun _ => none) (fun _ _ => none) rfl⟩

/-- **C1 counterexample.** A successfully completed render request whose
returned blob exceeds the budget: on the lossy path with `maxBytes = 1` and
an encoder that always produces a 2-byte blob, the render succeeds with a
blob of size `2 > 1`. -/
theorem claim_C1_counterexample :
    renderToCupCanvas none (some 1) (fun _ => none) (fun _ _ => some 2) =
        Except.ok 2 ∧ ¬ (2 : ℕ) ≤ 1 :=
  ⟨rfl, by decide⟩

/-- **C1 (amended).** For every render request that completes successfully,
the returned blob satisfies `size ≤ maxBytes`, **except** on the lossy
(non-png) path when no encoder attempt produced a within-budget blob, in
which case the last produced (over-budget) blob is returned; the lossless
(png) path never returns an over-budget blob. -/
theorem claim_C1 (tf : Option TargetFormat) (mbo : Option ℕ)
    (encodePng : ℕ → Option ℕ) (canvasToBlob : String → Option ℚ → Option ℕ) (b : ℕ)
    (h : renderToCupCanvas tf mbo encodePng canvasToBlob = Except.ok b) :
    (tf = some TargetFormat.png → b ≤ mbo.getD MAX_UPLOAD_BYTES) ∧
    (b ≤ mbo.getD MAX_UPLOAD_BYTES ∨
      ∀ a ∈ lossyAttempts, ∀ s, canvasToBlob a.mime a.quality = some s →
        mbo.getD MAX_UPLOAD_BYTES < s) := by
  by_cases htf : tf = some TargetFormat.png
  · rw [renderToCupCanvas] at h
    simp only [htf, if_pos rfl] at h
    rcases he : exportPngWithQuantization encodePng (mbo.getD MAX_UPLOAD_BYTES) with _ | c
    · rw [he] at h; cases h
    · rw [he] at h
      cases h
      have hc := pngSpecExport_le encodePng (mbo.getD MAX_UPLOAD_BYTES) b
        (by rw [exportPngWithQuantization_eq] at he; exact he)
      exact ⟨fun _ => hc, Or.inl hc⟩
  · rw [renderToCupCanvas] at h
    simp only [htf, if_false] at h
    rw [exportWithCompression_eq, lossySpecExport] at h
    refine ⟨fun hpng => absurd hpng htf, ?_⟩
    rcases hf : (lossyAttempts.filterMap
        (fun a => canvasToBlob a.mime a.quality)).find?
        (fun blob => decide (blob ≤ mbo.getD MAX_UPLOAD_BYTES)) with _ | c
    · rw [hf] at h
      rcases hg : (lossyAttempts.filterMap
          (fun a => canvasToBlob a.mime a.quality)).getLast? with _ | d
      · rw [hg] at h; cases h
      · rw [hg] at h
        cases h
        refine Or.inr (fun a ha s hs => ?_)
        have hmem : s ∈ lossyAttempts.filterMap (fun a => canvasToBlob a.mime a.quality) :=
          List.mem_filterMap.mpr ⟨a, ha, hs⟩
        have := List.find?_eq_none.mp hf s hmem
        simpa using Nat.lt_of_not_le (by simpa using this)
    · rw [hf] at h
      cases h
      have := List.find?_some hf
      exact Or.inl (by simpa using this)

theorem claim_C1_witness :
    ((some TargetFormat.png = some TargetFormat.png →
        (1 : ℕ) ≤ (some 5 : Option ℕ).getD MAX_UPLOAD_BYTES) ∧
      ((1 : ℕ) ≤ (some 5 : Option ℕ).getD MAX_UPLOAD_BYTES ∨
        ∀ a ∈ lossyAttempts, ∀ s,
          (fun _ _ => (none : Option ℕ)) a.mime a.quality = some s →
            (some 5 : Option ℕ).getD MAX_UPLOAD_BYTES < s)) :=
  claim_C1 (some TargetFormat.png) (some 5) (fun _ => some 1) (fun _ _ => none) 1 rfl

/-- **C8.** For `fit = contain` and any positive source dimensions, the
scale is `min(CUP_WIDTH/w, CUP_HEIGHT/h)`, the drawn region fits inside the
canvas, at least one drawn dimension equals its canvas dimension, and the
drawn region is centered. -/
theorem claim_C8 (w h : ℚ) (hw : 0 < w) (hh : 0 < h) :
    (fitGeometry Fit.contain w h).scale =
        min ((CUP_WIDTH : ℚ) / w) ((CUP_HEIGHT : ℚ) / h) ∧
    (fitGeometry Fit.contain w h).drawWidth ≤ (CUP_WIDTH : ℚ) ∧
    (fitGeometry Fit.contain w h).drawHeight ≤ (CUP_HEIGHT : ℚ) ∧
    ((fitGeometry Fit.contain w h).drawWidth = (CUP_WIDTH : ℚ) ∨
      (fitGeometry Fit.contain w h).drawHeight = (CUP_HEIGHT : ℚ)) ∧
    (fitGeometry Fit.contain w h).offsetX =
        ((CUP_WIDTH : ℚ) - (fitGeometry Fit.contain w h).drawWidth) / 2 ∧
    (fitGeometry Fit.contain w h).offsetY =
        ((CUP_HEIGHT : ℚ) - (fitGeometry Fit.contain w h).drawHeight) / 2 := by
  have hw' : w ≠ 0 := ne_of_gt hw
  have hh' : h ≠ 0 := ne_of_gt hh
  have hdw : (fitGeometry Fit.contain w h).drawWidth =
      w * min ((CUP_WIDTH : ℚ) / w) ((CUP_HEIGHT : ℚ) / h) := rfl
  have hdh : (fitGeometry Fit.contain w h).drawHeight =
      h * min ((CUP_WIDTH : ℚ) / w) ((CUP_HEIGHT : ℚ) / h) := rfl
  have h1 : w * ((CUP_WIDTH : ℚ) / w) = (CUP_WIDTH : ℚ) := by field_simp
  have h2 : h * ((CUP_HEIGHT : ℚ) / h) = (CUP_HEIGHT : ℚ) := by field_simp
  rcases le_total ((CUP_WIDTH : ℚ) / w) ((CUP_HEIGHT : ℚ) / h) with hle | hle
  · have hmin : min ((CUP_WIDTH : ℚ) / w) ((CUP_HEIGHT : ℚ) / h) = (CUP_WIDTH : ℚ) / w :=
      min_eq_left hle
    refine ⟨rfl, ?_, ?_, Or.inl (by rw [hdw, hmin, h1]), rfl, rfl⟩
    · rw [hdw, hmin, h1]
    · rw [hdh, hmin]
      calc h * ((CUP_WIDTH : ℚ) / w) ≤ h * ((CUP_HEIGHT : ℚ) / h) :=
            mul_le_mul_of_nonneg_left hle hh.le
        _ = (CUP_HEIGHT : ℚ) := h2
  · have hmin : min ((CUP_WIDTH : ℚ) / w) ((CUP_HEIGHT : ℚ) / h) = (CUP_HEIGHT : ℚ) / h :=
      min_eq_right hle
    refine ⟨rfl, ?_, ?_, Or.inr (by rw [hdh, hmin, h2]), rfl, rfl⟩
    · rw [hdw, hmin]
      calc w * ((CUP_HEIGHT : ℚ) / h) ≤ w * ((CUP_WIDTH : ℚ) / w) :=
            mul_le_mul_of_nonneg_left hle hw.le
        _ = (CUP_WIDTH : ℚ) := h1
    · rw [hdh, hmin, h2]

theorem claim_C8_witness :
    (fitGeometry Fit.contain 100 50).scale =
        min ((CUP_WIDTH : ℚ) / 100) ((CUP_HEIGHT : ℚ) / 50) ∧
    (fitGeometry Fit.contain 100 50).drawWidth ≤ (CUP_WIDTH : ℚ) ∧
    (fitGeometry Fit.contain 100 50).drawHeight ≤ (CUP_HEIGHT : ℚ) ∧
    ((fitGeometry Fit.contain 100 50).drawWidth = (CUP_WIDTH : ℚ) ∨
      (fitGeometry Fit.contain 100 50).drawHeight = (CUP_HEIGHT : ℚ)) ∧
    (fitGeometry Fit.contain 100 50).offsetX =
        ((CUP_WIDTH : ℚ) - (fitGeometry Fit.contain 100 50).drawWidth) / 2 ∧
    (fitGeometry Fit.contain 100 50).offsetY =
        ((CUP_HEIGHT : ℚ) - (fitGeometry Fit.contain 100 50).drawHeight) / 2 :=
  claim_C8 100 50 (by norm_num) (by norm_num)

/-! ### Binary threshold: pointwise characterization, range, idempotence -/

lemma luminance_nonneg (r g b : ℕ) : 0 ≤ luminance r g b := by
  unfold luminance
  positivity

lemma luminance_const (v : ℕ) : luminance v v v = (v : ℚ) := by
  unfold luminance
  ring_nf
lemma limitOf_le_255 (t : ℚ) : limitOf t ≤ 255 := by
  unfold limitOf
  have h : max 0 (min 255 (jsRound t)) ≤ (255 : ℤ) :=
    max_le (by norm_num) (min_le_left _ _)
  exact Int.toNat_le.mpr h

lemma limitOf_natCast (t : ℕ) (ht : t ≤ 255) : limitOf (t : ℚ) = t := by
  unfold limitOf jsRound
  have hfl : ⌊(t : ℚ) + 1/2⌋ = (t : ℤ) := by
    rw [Int.floor_eq_iff]
    constructor
    · push_cast; linarith
    · push_cast; linarith
  rw [hfl, min_eq_right (by exact_mod_cast ht), max_eq_right (by positivity)]
  simp

/-- The pointwise pixel transform of `applyBinaryThreshold`: all three
color channels become `255` when the pixel luminance reaches the clamped
threshold, `0` otherwise; alpha is kept. -/
def binPx (limit : ℕ) (p : Px) : Px :=
  let value : ℕ := if (limit : ℚ) ≤ luminance p.r p.g p.b then 255 else 0
  Px.mk value value value p.a

/-- The stride-4 loop on a well-formed (pixel-aligned) buffer acts
pixelwise. -/
lemma binGo_flat (limit : ℕ) (pxs : List Px) :
    applyBinaryThresholdGo limit (flatPx pxs) = flatPx (pxs.map (binPx limit)) := by
  induction pxs with
  | nil => rfl
  | cons p ps ih => simp only [flatPx, applyBinaryThresholdGo, List.map_cons, ih, binPx]

lemma binPx_idem (limit : ℕ) (hl : limit ≤ 255) (p : Px) :
    binPx limit (binPx limit p) = binPx limit p := by
  unfold binPx
  by_cases hc : (limit : ℚ) ≤ luminance p.r p.g p.b
  · have h255 : (limit : ℚ) ≤ luminance 255 255 255 := by
      rw [luminance_const]; exact_mod_cast hl
    simp only [hc, if_true, h255]
  · have h0 : ¬ (limit : ℚ) ≤ luminance 0 0 0 := by
      rw [luminance_const]
      intro hle
      have hz : limit = 0 := by exact_mod_cast le_antisymm hle (by positivity)
      exact hc (by rw [hz]; exact_mod_cast luminance_nonneg p.r p.g p.b)
    simp only [hc, if_false, h0]

lemma jsRound_natCast (v : ℕ) : jsRound (v : ℚ) = (v : ℤ) := by
  unfold jsRound
  rw [Int.floor_eq_iff]
  constructor
  · push_cast; linarith
  · push_cast; linarith

/-- **C5.** Binary threshold mode is pointwise: with the luminance computed
from the pixel's original channels, all three color channels become 255 when
`L ≥ threshold` and 0 otherwise, and every alpha channel is unchanged
(threshold taken in its declared `0–255` range, where the source's
round-and-clamp is the identity). -/
theorem claim_C5 (pxs : List Px) (t : ℕ) (ht : t ≤ 255) :
    applyBinaryThreshold (flatPx pxs) (t : ℚ) =
      flatPx (pxs.map (fun p =>
        let value : ℕ := if (t : ℚ) ≤ luminance p.r p.g p.b then 255 else 0
        Px.mk value value value p.a)) := by
  unfold applyBinaryThreshold
  rw [limitOf_natCast t ht, binGo_flat]
  rfl

theorem claim_C5_witness :
    (170 : ℕ) ≤ 255 ∧
    applyBinaryThreshold (flatPx [Px.mk 10 20 30 40]) ((170 : ℕ) : ℚ) =
      flatPx ([Px.mk 10 20 30 40].map (fun p =>
        let value : ℕ := if ((170 : ℕ) : ℚ) ≤ luminance p.r p.g p.b then 255 else 0
        Px.mk value value value p.a)) :=
  ⟨by decide, claim_C5 [Px.mk 10 20 30 40] 170 (by decide)⟩

/-- **C6.** For every (pixel-aligned) buffer and every threshold, the output
of binary threshold has every color channel equal to 0 or 255, and applying
binary threshold twice with the same threshold equals applying it once. -/
theorem claim_C6 :
    (∀ (pxs : List Px) (t : ℚ), ∃ qxs : List Px,
        applyBinaryThreshold (flatPx pxs) t = flatPx qxs ∧
        ∀ q ∈ qxs, (q.r = 0 ∨ q.r = 255) ∧ (q.g = 0 ∨ q.g = 255) ∧
          (q.b = 0 ∨ q.b = 255)) ∧
    (∀ (pxs : List Px) (t : ℚ),
        applyBinaryThreshold (applyBinaryThreshold (flatPx pxs) t) t =
          applyBinaryThreshold (flatPx pxs) t) := by
  constructor
  · intro pxs t
    refine ⟨pxs.map (binPx (limitOf t)), ?_, ?_⟩
    · unfold applyBinaryThreshold
      exact binGo_flat _ pxs
    · intro q hq
      rcases List.mem_map.mp hq with ⟨p, _, rfl⟩
      unfold binPx
      by_cases hc : ((limitOf t : ℕ) : ℚ) ≤ luminance p.r p.g p.b <;> simp [hc]
  · intro pxs t
    unfold applyBinaryThreshold
    rw [binGo_flat, binGo_flat, List.map_map]
    congr 1
    exact List.map_congr_left
      (fun p _ => binPx_idem (limitOf t) (limitOf_le_255 t) p)

theorem claim_C6_witness :
    applyBinaryThreshold (applyBinaryThreshold (flatPx [Px.mk 1 2 3 4]) 170) 170 =
      applyBinaryThreshold (flatPx [Px.mk 1 2 3 4]) 170 :=
  claim_C6.2 [Px.mk 1 2 3 4] 170

/-! ### Quantization -/

lemma quantGo_flat (divisor : ℕ) (pxs : List Px) :
    quantizeColorsGo divisor (flatPx pxs) =
      flatPx (pxs.map (fun p => Px.mk (quantChan divisor p.r) (quantChan divisor p.g)
        (quantChan divisor p.b) p.a)) := by
  induction pxs with
  | nil => rfl
  | cons p ps ih => simp only [flatPx, quantizeColorsGo, List.map_cons, ih]

lemma quantChan_one (v : ℕ) (hv : v ≤ 255) : quantChan 1 v = v := by
  unfold quantChan
  have h1 : ((v : ℚ) / ((1 : ℕ) : ℚ)) = (v : ℚ) := by norm_num
  rw [h1, jsRound_natCast]
  simp [min_eq_right hv]

lemma flatPx_mem {p : Px} {pxs : List Px} (hp : p ∈ pxs) :
    p.r ∈ flatPx pxs ∧ p.g ∈ flatPx pxs ∧ p.b ∈ flatPx pxs ∧ p.a ∈ flatPx pxs := by
  induction pxs with
  | nil => cases hp
  | cons q qs ih =>
    rcases List.mem_cons.mp hp with rfl | hmem
    · simp [flatPx]
    · have := ih hmem
      simp only [flatPx, List.mem_cons]
      tauto

/-- **C7.** Quantization acts on each pixel's three color channels as
`v ↦ min(255, round(v / divisor) * divisor)` with `divisor = step` for
`step > 0` and `divisor = 1` for `step = 0` (no division by zero; byte
values unchanged), alpha is never modified, and at `step = 16` the channel
value 20 maps to 16 and 130 maps to 128. -/
theorem claim_C7 :
    (∀ (pxs : List Px) (s : ℕ), quantizeColors (flatPx pxs) s =
        flatPx (pxs.map (fun p => Px.mk (quantChan (if s = 0 then 1 else s) p.r)
          (quantChan (if s = 0 then 1 else s) p.g)
          (quantChan (if s = 0 then 1 else s) p.b) p.a))) ∧
    (∀ (s v : ℕ), 0 < s →
        quantChan s v = min 255 ((jsRound ((v : ℚ) / (s : ℚ))).toNat * s)) ∧
    (∀ (pxs : List Px), (∀ x ∈ flatPx pxs, x ≤ 255) →
        quantizeColors (flatPx pxs) 0 = flatPx pxs) ∧
    quantChan 16 20 = 16 ∧ quantChan 16 130 = 128 := by
  refine ⟨?_, fun s v _ => rfl, ?_, ?_, ?_⟩
  · intro pxs s
    unfold quantizeColors
    exact quantGo_flat _ _
  · intro pxs h
    unfold quantizeColors
    rw [if_pos rfl, quantGo_flat]
    have hmap : List.map (fun p => Px.mk (quantChan 1 p.r) (quantChan 1 p.g)
        (quantChan 1 p.b) p.a) pxs = pxs := by
      conv_rhs => rw [← List.map_id pxs]
      refine List.map_congr_left (fun p hp => ?_)
      have hm := flatPx_mem hp
      rw [quantChan_one p.r (h _ hm.1), quantChan_one p.g (h _ hm.2.1),
        quantChan_one p.b (h _ hm.2.2.1)]
      rfl
    rw [hmap]
  · unfold quantChan jsRound
    norm_num [Int.toNat_ofNat]
  · unfold quantChan jsRound
    norm_num [Int.toNat_ofNat]
    decide

theorem claim_C7_witness :
    ((0 : ℕ) < 2 ∧
      quantChan 2 5 = min 255 ((jsRound ((5 : ℕ) / ((2 : ℕ) : ℚ))).toNat * 2)) ∧
    quantizeColors (flatPx [Px.mk 20 130 7 9]) 0 = flatPx [Px.mk 20 130 7 9] :=
  ⟨⟨by decide, claim_C7.2.1 2 5 (by decide)⟩,
    claim_C7.2.2.1 [Px.mk 20 130 7 9] (by decide)⟩

/-! ### Halftone pattern generator (`getHalftonePattern`) -/

/-- One entry of the `entries` array of `getHalftonePattern`: the local
pixel index together with its offset `(dx, dy)` from the block center
`((width-1)/2, (height-1)/2)`.  The source stores
`distance = dx*dx + dy*dy` and `angle = Math.atan2(dy, dx)`; we keep the
offsets and recover the distance and the exact `atan2` ordering from them
(the angle itself is irrational; the comparator only ever uses its order). -/
structure HEntry where
  index : ℕ
  dx : ℚ
  dy : ℚ
deriving DecidableEq

/-- `dx * dx + dy * dy` — the squared Euclidean distance stored by the
source. -/
def HEntry.distance (e : HEntry) : ℚ := e.dx * e.dx + e.dy * e.dy

/-- Sector of the direction `(dx, dy)` in the ascending order of
`Math.atan2(dy, dx) ∈ (-π, π]`: angles in `(-π, -π/2)` come first
(sector 0), then `-π/2` (sector 1: `dx = 0, dy < 0`), `(-π/2, 0)`
(sector 2), `0` (sector 3: `dy = 0, dx ≥ 0`, including the center pixel
since `atan2(0,0) = 0`), `(0, π/2)` (sector 4), `π/2` (sector 5),
`(π/2, π)` (sector 6), and finally `π` (sector 7: `dy = 0, dx < 0`). -/
def angleSector (dy dx : ℚ) : ℕ :=
  if dy < 0 then (if dx < 0 then 0 else if dx = 0 then 1 else 2)
  else if dy = 0 then (if 0 ≤ dx then 3 else 7)
  else if 0 < dx then 4 else if dx = 0 then 5 else 6

/-- Within each open sector `atan2(dy, dx)` is strictly increasing in
`dy / dx` (it equals `arctan (dy/dx)` up to a per-sector constant shift);
in the axis sectors (1, 3, 5, 7) the angle is constant and the slope is
irrelevant. -/
def angleSlope (dy dx : ℚ) : ℚ := if dx = 0 then 0 else dy / dx

/-- `atan2` comparison: `atan2(a.dy, a.dx) ≤ atan2(b.dy, b.dx)`, decided
exactly over the rational offsets. -/
def angleLe (a b : HEntry) : Prop :=
  toLex (angleSector a.dy a.dx, angleSlope a.dy a.dx) ≤
    toLex (angleSector b.dy b.dx, angleSlope b.dy b.dx)

/-- The comparison key of the source's sort comparator
`(a, b) => a.distance === b.distance ? a.angle - b.angle : a.distance - b.distance`:
lexicographic in (squared distance, `atan2` order). -/
def entryKey (e : HEntry) : ℚ ×ₗ (ℕ ×ₗ ℚ) :=
  toLex (e.distance, toLex (angleSector e.dy e.dx, angleSlope e.dy e.dx))

def entryLe (a b : HEntry) : Prop := entryKey a ≤ entryKey b

instance : DecidableRel entryLe := fun a b =>
  inferInstanceAs (Decidable (entryKey a ≤ entryKey b))

instance : IsTotal HEntry entryLe := ⟨fun a b => le_total (entryKey a) (entryKey b)⟩

instance : IsTrans HEntry entryLe := ⟨fun _ _ _ => le_trans⟩

lemma entryLe_iff (a b : HEntry) : entryLe a b ↔
    (a.distance < b.distance ∨ (a.distance = b.distance ∧ angleLe a b)) := by
  unfold entryLe entryKey angleLe
  exact Prod.Lex.le_iff _ _

/-- An entry as pushed by the source's double loop:
`index = y * width + x`, `dx = x - centerX`, `dy = y - centerY`. -/
def mkEntry (w : ℕ) (cx cy : ℚ) (x y : ℕ) : HEntry :=
  HEntry.mk (y * w + x) ((x : ℚ) - cx) ((y : ℚ) - cy)

/-- The `for y / for x` double loop of `getHalftonePattern` building the
`entries` array in row-major order. -/
def hEntries (w h : ℕ) : List HEntry :=
  (List.range h).flatMap (fun y =>
    (List.range w).map (fun x => mkEntry w (((w : ℚ) - 1) / 2) (((h : ℚ) - 1) / 2) x y))

/-- `getHalftonePattern(width, height)` without the cache: sort the entries
by (distance, angle) and keep the indices.  The source's comparator is a
total order with no ties between distinct entries (equal distance and equal
angle force equal offsets), so every correct sort produces the same list;
`insertionSort` is our executable model of `entries.sort`. -/
def getHalftonePattern (w h : ℕ) : List ℕ :=
  (List.insertionSort entryLe (hEntries w h)).map HEntry.index

/-- The entry a local index `i` of a `w × h` block corresponds to
(`x = i % w`, `y = i / w`). -/
def entryOfIndex (w h i : ℕ) : HEntry :=
  mkEntry w (((w : ℚ) - 1) / 2) (((h : ℚ) - 1) / 2) (i % w) (i / w)

/-- The halftone pattern cache, keyed by the block shape.  (The source keys
by the template string `width + "x" + height`; decimal rendering makes that
key in bijection with the shape pair, which we use directly.) -/
def HCache : Type := ℕ × ℕ → Option (List ℕ)

def emptyHCache : HCache := fun _ => none

/-- Cache states in which every stored pattern is the computed pattern for
its key — exactly the states reachable under the source's population
discipline. -/
def HCacheWF (c : HCache) : Prop :=
  ∀ w h p, c (w, h) = some p → p = getHalftonePattern w h

/-- `getHalftonePattern` with its memoization made explicit: return the
cached pattern when present, otherwise compute, store and return it. -/
def getHalftonePatternCached (c : HCache) (w h : ℕ) : List ℕ × HCache :=
  match c (w, h) with
  | some p => (p, c)
  | none =>
    (getHalftonePattern w h,
      fun k => if k = (w, h) then some (getHalftonePattern w h) else c k)

lemma entryOfIndex_index (w h i : ℕ) : (entryOfIndex w h i).index = i := by
  show i / w * w + i % w = i
  rw [Nat.mul_comm]
  exact Nat.div_add_mod i w

lemma flatMap_grid (w : ℕ) (cx cy : ℚ) (h : ℕ) :
    (List.range h).flatMap (fun y => (List.range w).map (fun x => mkEntry w cx cy x y)) =
      (List.range (w * h)).map (fun i => mkEntry w cx cy (i % w) (i / w)) := by
  induction h with
  | zero => simp
  | succ n ih =>
    rw [List.range_succ, List.flatMap_append, ih, Nat.mul_succ, List.range_add,
      List.map_append, List.map_map]
    congr 1
    · simp only [List.flatMap_cons, List.flatMap_nil, List.append_nil]
      refine List.map_congr_left (fun x hx => ?_)
      have hxw : x < w := List.mem_range.mp hx
      have hmod : (w * n + x) % w = x := by
        rw [Nat.add_comm, Nat.add_mul_mod_self_left]
        exact Nat.mod_eq_of_lt hxw
      have hdiv : (w * n + x) / w = n := by
        rw [Nat.add_comm, Nat.add_mul_div_left x n (Nat.pos_of_ne_zero (by omega)),
          Nat.div_eq_of_lt hxw]
        omega
      simp only [Function.comp]
      rw [hmod, hdiv]

lemma hEntries_eq (w h : ℕ) :
    hEntries w h = (List.range (w * h)).map (entryOfIndex w h) :=
  flatMap_grid w (((w : ℚ) - 1) / 2) (((h : ℚ) - 1) / 2) h

lemma hEntries_map_index (w h : ℕ) :
    (hEntries w h).map HEntry.index = List.range (w * h) := by
  rw [hEntries_eq, List.map_map]
  conv_rhs => rw [← List.map_id (List.range (w * h))]
  exact List.map_congr_left (fun i _ => entryOfIndex_index w h i)

/-- The halftone pattern is a permutation of the block-local indices. -/
lemma pattern_perm (w h : ℕ) :
    (getHalftonePattern w h).Perm (List.range (w * h)) := by
  unfold getHalftonePattern
  have hp := (List.perm_insertionSort entryLe (hEntries w h)).map HEntry.index
  rwa [hEntries_map_index] at hp

lemma pattern_length (w h : ℕ) : (getHalftonePattern w h).length = w * h := by
  rw [(pattern_perm w h).length_eq, List.length_range]

/-- Every block-local index is hit by some position of the pattern. -/
lemma pattern_covers (w h li : ℕ) (hli : li < w * h) :
    ∃ o, o < w * h ∧ (getHalftonePattern w h).getD o 0 = li := by
  have hmem : li ∈ getHalftonePattern w h :=
    (pattern_perm w h).mem_iff.mpr (List.mem_range.mpr hli)
  rcases List.mem_iff_get.mp hmem with ⟨⟨o, ho⟩, hget⟩
  refine ⟨o, by rwa [pattern_length] at ho, ?_⟩
  rw [List.getD_eq_getElem?_getD, List.getElem?_eq_getElem ho]
  simpa using hget

lemma pattern_sorted (w h : ℕ) :
    List.Pairwise (fun i j => entryLe (entryOfIndex w h i) (entryOfIndex w h j))
      (getHalftonePattern w h) := by
  unfold getHalftonePattern
  have hs : List.Pairwise entryLe (List.insertionSort entryLe (hEntries w h)) :=
    List.sorted_insertionSort entryLe (hEntries w h)
  have hmem : ∀ e ∈ List.insertionSort entryLe (hEntries w h),
      entryOfIndex w h e.index = e := by
    intro e he
    have hin : e ∈ hEntries w h :=
      (List.perm_insertionSort entryLe (hEntries w h)).mem_iff.mp he
    rw [hEntries_eq] at hin
    rcases List.mem_map.mp hin with ⟨i, _, rfl⟩
    rw [entryOfIndex_index]
  rw [List.pairwise_map]
  refine hs.imp_of_mem ?_
  intro a b ha hb hR
  rw [hmem a ha, hmem b hb]
  exact hR

/-- **C4.** For every block shape the halftone pattern is a permutation of
`0..w*h-1`, sorted ascending by squared Euclidean distance from the block
center with ties broken by ascending `atan2` angle; and the cached lookup
returns the identical sequence on every call (cache correctness). -/
theorem claim_C4 :
    (∀ w h : ℕ, (getHalftonePattern w h).Perm (List.range (w * h))) ∧
    (∀ w h : ℕ, List.Pairwise (fun i j =>
        (entryOfIndex w h i).distance < (entryOfIndex w h j).distance ∨
        ((entryOfIndex w h i).distance = (entryOfIndex w h j).distance ∧
          angleLe (entryOfIndex w h i) (entryOfIndex w h j)))
      (getHalftonePattern w h)) ∧
    HCacheWF emptyHCache ∧
    (∀ (c : HCache) (w h : ℕ), HCacheWF c →
      (getHalftonePatternCached c w h).1 = getHalftonePattern w h ∧
      HCacheWF (getHalftonePatternCached c w h).2) := by
  refine ⟨pattern_perm, ?_, ?_, ?_⟩
  · intro w h
    exact (pattern_sorted w h).imp (fun hij => (entryLe_iff _ _).mp hij)
  · intro w h p hp
    exact Option.noConfusion hp
  · intro c w h hc
    rcases hcw : c (w, h) with _ | p
    · have hcache : getHalftonePatternCached c w h =
          (getHalftonePattern w h,
            fun k => if k = (w, h) then some (getHalftonePattern w h) else c k) := by
        unfold getHalftonePatternCached
        rw [hcw]
      rw [hcache]
      refine ⟨rfl, ?_⟩
      intro w' h' p' hp'
      simp only at hp'
      by_cases hk : ((w', h') : ℕ × ℕ) = (w, h)
      · rw [if_pos hk] at hp'
        have h1 : w' = w := congrArg Prod.fst hk
        have h2 : h' = h := congrArg Prod.snd hk
        subst h1
        subst h2
        exact (Option.some_inj.mp hp').symm
      · rw [if_neg hk] at hp'
        exact hc w' h' p' hp'
    · have hcache : getHalftonePatternCached c w h = (p, c) := by
        unfold getHalftonePatternCached
        rw [hcw]
      rw [hcache]
      exact ⟨hc w h p hcw, hc⟩

theorem claim_C4_witness :
    (getHalftonePatternCached emptyHCache 2 2).1 = getHalftonePattern 2 2 :=
  (claim_C4.2.2.2 emptyHCache 2 2 claim_C4.2.2.1).1

/-! ### Sampled halftone mode (`applySampledMonochrome`) -/

/-- `clamp01` of the source. -/
def clamp01 (value : ℚ) : ℚ :=
  if value < 0 then 0 else if 1 < value then 1 else value

/-- `Math.max(2, Math.min(32, Math.round(density)))` — the block side used
by `applySampledMonochrome` (source default `density = 6`). -/
def blockSizeOf (density : ℚ) : ℕ := (max 2 (min 32 (jsRound density))).toNat

/-- The values taken by a `for (v = 0; v < total; v += size)` loop header:
`0, size, 2*size, ...` while `< total`. -/
def blockStarts (total size : ℕ) : List ℕ :=
  if size = 0 then [] else (List.range ((total + size - 1) / size)).map (fun k => k * size)

/-- The luminance read at byte offset `idx` of the buffer. -/
def grayAt (data : List ℕ) (idx : ℕ) : ℚ :=
  luminance (data.getD idx 0) (data.getD (idx + 1) 0) (data.getD (idx + 2) 0)

/-- The `graySum` accumulation loop over one block. -/
def blockGraySum (data : List ℕ) (width x y bw bh : ℕ) : ℚ :=
  ((List.range bh).flatMap (fun offsetY =>
    (List.range bw).map (fun offsetX =>
      grayAt data (((y + offsetY) * width + (x + offsetX)) * 4)))).sum

/-- One iteration of the pattern-walk write loop: write `value` (255 for the
first `whitePixels` orders, 0 after) to the three color bytes of the pixel
at pattern position `order`. -/
def writeOrder (pattern : List ℕ) (bw width x y wp : ℕ) (d : List ℕ) (order : ℕ) :
    List ℕ :=
  let localIndex := pattern.getD order 0
  let localX := localIndex % bw
  let localY := localIndex / bw
  let idx := ((y + localY) * width + (x + localX)) * 4
  let value : ℕ := if order < wp then 255 else 0
  ((d.set idx value).set (idx + 1) value).set (idx + 2) value

/-- The body of the per-block portion of `applySampledMonochrome`: clip the
block to the canvas, average the luminance, derive the white-pixel count,
and walk the halftone pattern writing black/white. -/
def processBlock (width height bs : ℕ) (bias : ℚ) (d : List ℕ) (x y : ℕ) : List ℕ :=
  let blockHeight := min bs (height - y)
  let blockWidth := min bs (width - x)
  let pixelCount := blockWidth * blockHeight
  if pixelCount = 0 then d
  else
    let graySum := blockGraySum d width x y blockWidth blockHeight
    let grayValue := graySum / (pixelCount : ℚ)
    let normalized := clamp01 (grayValue / 255 - bias)
    let whitePixels := (jsRound (normalized * (pixelCount : ℚ))).toNat
    let pattern := getHalftonePattern blockWidth blockHeight
    (List.range pixelCount).foldl (writeOrder pattern blockWidth width x y whitePixels) d

/-- The double `for (y...) for (x...)` block loop of
`applySampledMonochrome` over the pixel buffer. -/
def applySampledData (width height bs : ℕ) (bias : ℚ) (d : List ℕ) : List ℕ :=
  (blockStarts height bs).foldl
    (fun dy y => (blockStarts width bs).foldl
      (fun dx x => processBlock width height bs bias dx x y) dy) d

/-- An `ImageData`: flat RGBA bytes plus dimensions. -/
structure ImageDataM where
  data : List ℕ
  width : ℕ
  height : ℕ
deriving DecidableEq

/-- `applySampledMonochrome(imageData, density, threshold)` (source defaults
`density = 6`, `threshold = 170`); `bias = (limit - 170) / 255`. -/
def applySampledMonochrome (img : ImageDataM) (density threshold : ℚ) : ImageDataM :=
  ImageDataM.mk
    (applySampledData img.width img.height (blockSizeOf density)
      ((((limitOf threshold : ℕ) : ℚ) - 170) / 255) img.data)
    img.width img.height

/-! ### Out-of-range parameter clamping (threshold and density) -/

lemma jsRound_neg_le (t : ℚ) (ht : t < 0) : jsRound t ≤ 0 := by
  unfold jsRound
  have h1 : (⌊t + 1/2⌋ : ℤ) < 1 := Int.floor_lt.mpr (by push_cast; linarith)
  omega

lemma limitOf_300 : limitOf 300 = 255 := by
  unfold limitOf jsRound
  norm_num [Int.toNat_ofNat]
  decide

lemma limitOf_255 : limitOf 255 = 255 := by
  unfold limitOf jsRound
  norm_num [Int.toNat_ofNat]
  decide

lemma limitOf_neg (t : ℚ) (ht : t < 0) : limitOf t = 0 := by
  unfold limitOf
  have h := jsRound_neg_le t ht
  rw [min_eq_right (by omega), max_eq_left h]
  rfl

lemma limitOf_zero : limitOf 0 = 0 := by
  unfold limitOf jsRound
  norm_num

lemma blockSizeOf_ge_2 (density : ℚ) : 2 ≤ blockSizeOf density := by
  unfold blockSizeOf
  have h : (2 : ℤ) ≤ max 2 (min 32 (jsRound density)) := le_max_left _ _
  exact Int.toNat_le_toNat h

lemma blockSizeOf_le_32 (density : ℚ) : blockSizeOf density ≤ 32 := by
  unfold blockSizeOf
  have h : max 2 (min 32 (jsRound density)) ≤ (32 : ℤ) :=
    max_le (by norm_num) (min_le_left _ _)
  exact Int.toNat_le.mpr h

lemma blockSizeOf_100 : blockSizeOf 100 = 32 := by
  unfold blockSizeOf jsRound
  norm_num [Int.toNat_ofNat]
  decide

lemma blockSizeOf_32 : blockSizeOf 32 = 32 := by
  unfold blockSizeOf jsRound
  norm_num [Int.toNat_ofNat]
  decide

lemma blockSizeOf_neg (density : ℚ) (hd : density < 0) : blockSizeOf density = 2 := by
  unfold blockSizeOf
  have h := jsRound_neg_le density hd
  rw [min_eq_right (by omega), max_eq_left (by omega)]
  rfl

lemma blockSizeOf_2 : blockSizeOf 2 = 2 := by
  unfold blockSizeOf jsRound
  norm_num [Int.toNat_ofNat]
  decide

/-- **C10.** Out-of-range parameters are accepted, not rejected: both tone
mappers round and clamp the threshold into `[0, 255]` (300 behaves exactly
as 255, any negative threshold exactly as 0), and sampled halftone clamps
the rounded density into `[2, 32]` before using it as the block side
(100 behaves as 32, any negative density as 2). -/
theorem claim_C10 :
    (∀ d : List ℕ, applyBinaryThreshold d 300 = applyBinaryThreshold d 255) ∧
    (∀ (d : List ℕ) (t : ℚ), t < 0 → applyBinaryThreshold d t = applyBinaryThreshold d 0) ∧
    (∀ (img : ImageDataM) (dens : ℚ),
      applySampledMonochrome img dens 300 = applySampledMonochrome img dens 255) ∧
    (∀ (img : ImageDataM) (dens t : ℚ), t < 0 →
      applySampledMonochrome img dens t = applySampledMonochrome img dens 0) ∧
    (∀ dens : ℚ, 2 ≤ blockSizeOf dens ∧ blockSizeOf dens ≤ 32) ∧
    (∀ (img : ImageDataM) (t : ℚ),
      applySampledMonochrome img 100 t = applySampledMonochrome img 32 t) ∧
    (∀ (img : ImageDataM) (dens t : ℚ), dens < 0 →
      applySampledMonochrome img dens t = applySampledMonochrome img 2 t) := by
  refine ⟨?_, ?_, ?_, ?_, fun dens => ⟨blockSizeOf_ge_2 dens, blockSizeOf_le_32 dens⟩, ?_, ?_⟩
  · intro d
    unfold applyBinaryThreshold
    rw [limitOf_300, limitOf_255]
  · intro d t ht
    unfold applyBinaryThreshold
    rw [limitOf_neg t ht, limitOf_zero]
  · intro img dens
    unfold applySampledMonochrome
    rw [limitOf_300, limitOf_255]
  · intro img dens t ht
    unfold applySampledMonochrome
    rw [limitOf_neg t ht, limitOf_zero]
  · intro img t
    unfold applySampledMonochrome
    rw [blockSizeOf_100, blockSizeOf_32]
  · intro img dens t hd
    unfold applySampledMonochrome
    rw [blockSizeOf_neg dens hd, blockSizeOf_2]

theorem claim_C10_witness :
    ((-5 : ℚ) < 0 ∧
      applyBinaryThreshold [9, 9, 9, 9] (-5) = applyBinaryThreshold [9, 9, 9, 9] 0) ∧
    applySampledMonochrome (ImageDataM.mk [9, 9, 9, 9] 1 1) (-3) 170 =
      applySampledMonochrome (ImageDataM.mk [9, 9, 9, 9] 1 1) 2 170 :=
  ⟨⟨by norm_num, claim_C10.2.1 [9, 9, 9, 9] (-5) (by norm_num)⟩,
    claim_C10.2.2.2.2.2.2 (ImageDataM.mk [9, 9, 9, 9] 1 1) (-3) 170 (by norm_num)⟩

/-! ### C9 support: the write loop covers every pixel of every block -/

lemma getD_set (l : List ℕ) (i j v : ℕ) :
    (l.set i v).getD j 0 = if i = j ∧ i < l.length then v else l.getD j 0 := by
  by_cases hij : i = j
  · subst hij
    by_cases hl : i < l.length
    · simp [List.getD_eq_getElem?_getD, List.getElem?_set, hl]
    · have hnone : l[i]? = none := List.getElem?_eq_none (by omega)
      simp [List.getD_eq_getElem?_getD, List.getElem?_set, hl, hnone]
  · simp [List.getD_eq_getElem?_getD, List.getElem?_set, hij]

/-- Base byte offset written by pattern position `order` (the source's
`idx`). -/
def wIdx (pattern : List ℕ) (bw width x y order : ℕ) : ℕ :=
  ((y + (pattern.getD order 0) / bw) * width + (x + (pattern.getD order 0) % bw)) * 4

/-- The black-or-white value written at pattern position `order`. -/
def wVal (wp order : ℕ) : ℕ := if order < wp then 255 else 0

lemma wVal_mem (wp order : ℕ) : wVal wp order = 0 ∨ wVal wp order = 255 := by
  unfold wVal
  by_cases h : order < wp
  · exact Or.inr (if_pos h)
  · exact Or.inl (if_neg h)

lemma writeOrder_eq (pattern : List ℕ) (bw width x y wp : ℕ) (d : List ℕ) (order : ℕ) :
    writeOrder pattern bw width x y wp d order =
      ((d.set (wIdx pattern bw width x y order) (wVal wp order)).set
          (wIdx pattern bw width x y order + 1) (wVal wp order)).set
        (wIdx pattern bw width x y order + 2) (wVal wp order) := rfl

lemma writeOrder_length (pattern : List ℕ) (bw width x y wp : ℕ) (d : List ℕ) (order : ℕ) :
    (writeOrder pattern bw width x y wp d order).length = d.length := by
  rw [writeOrder_eq]
  simp [List.length_set]

lemma writeOrder_getD (pattern : List ℕ) (bw width x y wp : ℕ) (d : List ℕ) (order j : ℕ) :
    (writeOrder pattern bw width x y wp d order).getD j 0 = d.getD j 0 ∨
    ((writeOrder pattern bw width x y wp d order).getD j 0 = 0 ∨
      (writeOrder pattern bw width x y wp d order).getD j 0 = 255) := by
  rw [writeOrder_eq, getD_set, getD_set, getD_set]
  simp only [List.length_set]
  split_ifs <;> first | exact Or.inr (wVal_mem wp order) | exact Or.inl rfl

lemma writeOrder_alpha (pattern : List ℕ) (bw width x y wp : ℕ) (d : List ℕ) (order j : ℕ)
    (hj : j % 4 = 3) :
    (writeOrder pattern bw width x y wp d order).getD j 0 = d.getD j 0 := by
  rw [writeOrder_eq, getD_set, getD_set, getD_set]
  simp only [List.length_set]
  have hmod : wIdx pattern bw width x y order % 4 = 0 := Nat.mul_mod_left _ 4
  split_ifs with h1 h2 h3
  · exact absurd hj (by obtain ⟨he, -⟩ := h1; omega)
  · exact absurd hj (by obtain ⟨he, -⟩ := h2; omega)
  · exact absurd hj (by obtain ⟨he, -⟩ := h3; omega)
  · rfl

lemma writeOrder_write (pattern : List ℕ) (bw width x y wp : ℕ) (d : List ℕ) (order j : ℕ)
    (hj : j = wIdx pattern bw width x y order ∨ j = wIdx pattern bw width x y order + 1 ∨
      j = wIdx pattern bw width x y order + 2)
    (hlen : j < d.length) :
    (writeOrder pattern bw width x y wp d order).getD j 0 = 0 ∨
      (writeOrder pattern bw width x y wp d order).getD j 0 = 255 := by
  rw [writeOrder_eq, getD_set, getD_set, getD_set]
  simp only [List.length_set]
  rcases hj with rfl | rfl | rfl
  · split_ifs with h1 h2 h3
    · exact wVal_mem wp order
    · exact wVal_mem wp order
    · exact wVal_mem wp order
    · exact absurd ⟨rfl, hlen⟩ h3
  · split_ifs with h1 h2 h3
    · exact wVal_mem wp order
    · exact wVal_mem wp order
    · exact wVal_mem wp order
    · exact absurd ⟨rfl, hlen⟩ h2
  · split_ifs with h1 h2 h3
    · exact wVal_mem wp order
    · exact wVal_mem wp order
    · exact wVal_mem wp order
    · exact absurd ⟨rfl, hlen⟩ h1

lemma foldW_length (pattern : List ℕ) (bw width x y wp : ℕ) (l : List ℕ) :
    ∀ d : List ℕ, (l.foldl (writeOrder pattern bw width x y wp) d).length = d.length := by
  induction l with
  | nil => intro d; rfl
  | cons o l ih =>
    intro d
    rw [List.foldl_cons, ih, writeOrder_length]

lemma foldW_getD (pattern : List ℕ) (bw width x y wp : ℕ) (l : List ℕ) :
    ∀ (d : List ℕ) (j : ℕ),
      (l.foldl (writeOrder pattern bw width x y wp) d).getD j 0 = d.getD j 0 ∨
      ((l.foldl (writeOrder pattern bw width x y wp) d).getD j 0 = 0 ∨
        (l.foldl (writeOrder pattern bw width x y wp) d).getD j 0 = 255) := by
  induction l with
  | nil => intro d j; exact Or.inl rfl
  | cons o l ih =>
    intro d j
    rw [List.foldl_cons]
    rcases ih (writeOrder pattern bw width x y wp d o) j with h | h
    · rcases writeOrder_getD pattern bw width x y wp d o j with h2 | h2
      · exact Or.inl (h.trans h2)
      · rw [h]
        exact Or.inr h2
    · exact Or.inr h

lemma foldW_alpha (pattern : List ℕ) (bw width x y wp : ℕ) (l : List ℕ) :
    ∀ (d : List ℕ) (j : ℕ), j % 4 = 3 →
      (l.foldl (writeOrder pattern bw width x y wp) d).getD j 0 = d.getD j 0 := by
  induction l with
  | nil => intro d j _; rfl
  | cons o l ih =>
    intro d j hj
    rw [List.foldl_cons, ih _ j hj, writeOrder_alpha pattern bw width x y wp d o j hj]

lemma foldW_establish (pattern : List ℕ) (bw width x y wp : ℕ) (l : List ℕ) :
    ∀ (d : List ℕ) (j : ℕ), j < d.length →
      (∃ o ∈ l, j = wIdx pattern bw width x y o ∨ j = wIdx pattern bw width x y o + 1 ∨
        j = wIdx pattern bw width x y o + 2) →
      ((l.foldl (writeOrder pattern bw width x y wp) d).getD j 0 = 0 ∨
        (l.foldl (writeOrder pattern bw width x y wp) d).getD j 0 = 255) := by
  induction l with
  | nil =>
    intro d j _ hw
    rcases hw with ⟨o, ho, -⟩
    cases ho
  | cons o l ih =>
    intro d j hlen hw
    rw [List.foldl_cons]
    rcases hw with ⟨o', ho', hj⟩
    rcases List.mem_cons.mp ho' with rfl | hmem
    · have hS := writeOrder_write pattern bw width x y wp d o' j hj hlen
      rcases foldW_getD pattern bw width x y wp l (writeOrder pattern bw width x y wp d o') j
        with h | h
      · rw [h]
        exact hS
      · exact h
    · refine ih (writeOrder pattern bw width x y wp d o) j ?_ ⟨o', hmem, hj⟩
      rw [writeOrder_length]
      exact hlen

lemma processBlock_length (width height bs : ℕ) (bias : ℚ) (d : List ℕ) (x y : ℕ) :
    (processBlock width height bs bias d x y).length = d.length := by
  unfold processBlock
  dsimp only
  split_ifs with h
  · rfl
  · exact foldW_length _ _ _ _ _ _ _ d

lemma processBlock_getD (width height bs : ℕ) (bias : ℚ) (d : List ℕ) (x y j : ℕ) :
    (processBlock width height bs bias d x y).getD j 0 = d.getD j 0 ∨
    ((processBlock width height bs bias d x y).getD j 0 = 0 ∨
      (processBlock width height bs bias d x y).getD j 0 = 255) := by
  unfold processBlock
  dsimp only
  split_ifs with h
  · exact Or.inl rfl
  · exact foldW_getD _ _ _ _ _ _ _ d j

lemma processBlock_alpha (width height bs : ℕ) (bias : ℚ) (d : List ℕ) (x y j : ℕ)
    (hj : j % 4 = 3) :
    (processBlock width height bs bias d x y).getD j 0 = d.getD j 0 := by
  unfold processBlock
  dsimp only
  split_ifs with h
  · rfl
  · exact foldW_alpha _ _ _ _ _ _ _ d j hj

lemma processBlock_establish (width height bs : ℕ) (bias : ℚ) (d : List ℕ) (x y px py c : ℕ)
    (hx1 : x ≤ px) (hx2 : px < x + min bs (width - x))
    (hy1 : y ≤ py) (hy2 : py < y + min bs (height - y))
    (hc : c < 3) (hlen : (py * width + px) * 4 + c < d.length) :
    ((processBlock width height bs bias d x y).getD ((py * width + px) * 4 + c) 0 = 0 ∨
      (processBlock width height bs bias d x y).getD ((py * width + px) * 4 + c) 0 = 255) := by
  have hbw : 0 < min bs (width - x) := by omega
  have hbh : 0 < min bs (height - y) := by omega
  unfold processBlock
  dsimp only
  rw [if_neg (Nat.mul_ne_zero (by omega) (by omega))]
  refine foldW_establish _ _ _ _ _ _ _ d _ hlen ?_
  have hli : (py - y) * min bs (width - x) + (px - x) <
      min bs (width - x) * min bs (height - y) := by
    calc (py - y) * min bs (width - x) + (px - x)
        < (py - y) * min bs (width - x) + min bs (width - x) := by omega
      _ = ((py - y) + 1) * min bs (width - x) := by ring
      _ ≤ min bs (height - y) * min bs (width - x) :=
          Nat.mul_le_mul_right _ (by omega)
      _ = min bs (width - x) * min bs (height - y) := Nat.mul_comm _ _
  rcases pattern_covers (min bs (width - x)) (min bs (height - y)) _ hli with ⟨o, ho, hgetD⟩
  refine ⟨o, List.mem_range.mpr ho, ?_⟩
  have e1 : (py - y) * min bs (width - x) + (px - x) =
      (px - x) + min bs (width - x) * (py - y) := by ring
  have hmod : ((py - y) * min bs (width - x) + (px - x)) % min bs (width - x) = px - x := by
    rw [e1, Nat.add_mul_mod_self_left]
    exact Nat.mod_eq_of_lt (by omega)
  have hdiv : ((py - y) * min bs (width - x) + (px - x)) / min bs (width - x) = py - y := by
    rw [e1, Nat.add_mul_div_left _ _ hbw, Nat.div_eq_of_lt (by omega)]
    omega
  unfold wIdx
  rw [hgetD, hmod, hdiv]
  have ey : y + (py - y) = py := by omega
  have ex : x + (px - x) = px := by omega
  rw [ey, ex]
  have hc3 : c = 0 ∨ c = 1 ∨ c = 2 := by omega
  rcases hc3 with rfl | rfl | rfl
  · exact Or.inl (by omega)
  · exact Or.inr (Or.inl (by omega))
  · exact Or.inr (Or.inr (by omega))

lemma blockStarts_mem (total size v : ℕ) (hs : 0 < size) (hv : v < total) :
    v / size * size ∈ blockStarts total size := by
  unfold blockStarts
  rw [if_neg (by omega)]
  refine List.mem_map.mpr ⟨v / size, List.mem_range.mpr ?_, rfl⟩
  have h1 : v / size ≤ (total - 1) / size := Nat.div_le_div_right (by omega)
  have h2 : (total + size - 1) / size = (total - 1) / size + 1 := by
    have he : total + size - 1 = (total - 1) + size := by omega
    rw [he, Nat.add_div_right _ hs]
  omega

lemma ownStart_le (v size : ℕ) : v / size * size ≤ v := Nat.div_mul_le_self v size

lemma lt_ownStart_add (v size total : ℕ) (hs : 0 < size) (hv : v < total) :
    v < v / size * size + min size (total - v / size * size) := by
  have h := Nat.div_add_mod v size
  have hml : v % size < size := Nat.mod_lt v hs
  rw [Nat.mul_comm] at h
  have hq1 : v / size * size ≤ v := Nat.div_mul_le_self v size
  rcases min_cases size (total - v / size * size) with ⟨hm, -⟩ | ⟨hm, -⟩ <;> omega

lemma foldX_length (width height bs : ℕ) (bias : ℚ) (y : ℕ) (xs : List ℕ) :
    ∀ d : List ℕ,
      (xs.foldl (fun dx x => processBlock width height bs bias dx x y) d).length =
        d.length := by
  induction xs with
  | nil => intro d; rfl
  | cons x xs ih =>
    intro d
    rw [List.foldl_cons, ih, processBlock_length]

lemma foldX_getD (width height bs : ℕ) (bias : ℚ) (y : ℕ) (xs : List ℕ) :
    ∀ (d : List ℕ) (j : ℕ),
      (xs.foldl (fun dx x => processBlock width height bs bias dx x y) d).getD j 0 =
          d.getD j 0 ∨
      ((xs.foldl (fun dx x => processBlock width height bs bias dx x y) d).getD j 0 = 0 ∨
        (xs.foldl (fun dx x => processBlock width height bs bias dx x y) d).getD j 0 = 255) := by
  induction xs with
  | nil => intro d j; exact Or.inl rfl
  | cons x xs ih =>
    intro d j
    rw [List.foldl_cons]
    rcases ih (processBlock width height bs bias d x y) j with h | h
    · rcases processBlock_getD width height bs bias d x y j with h2 | h2
      · exact Or.inl (h.trans h2)
      · rw [h]
        exact Or.inr h2
    · exact Or.inr h

lemma foldX_alpha (width height bs : ℕ) (bias : ℚ) (y : ℕ) (xs : List ℕ) :
    ∀ (d : List ℕ) (j : ℕ), j % 4 = 3 →
      (xs.foldl (fun dx x => processBlock width height bs bias dx x y) d).getD j 0 =
        d.getD j 0 := by
  induction xs with
  | nil => intro d j _; rfl
  | cons x xs ih =>
    intro d j hj
    rw [List.foldl_cons, ih _ j hj, processBlock_alpha width height bs bias d x y j hj]

lemma foldX_establish (width height bs : ℕ) (bias : ℚ) (y : ℕ) (hbs : 0 < bs) (xs : List ℕ) :
    ∀ (d : List ℕ) (px py c : ℕ), px / bs * bs ∈ xs → px < width →
      y ≤ py → py < y + min bs (height - y) → c < 3 →
      (py * width + px) * 4 + c < d.length →
      ((xs.foldl (fun dx x => processBlock width height bs bias dx x y) d).getD
          ((py * width + px) * 4 + c) 0 = 0 ∨
        (xs.foldl (fun dx x => processBlock width height bs bias dx x y) d).getD
          ((py * width + px) * 4 + c) 0 = 255) := by
  induction xs with
  | nil =>
    intro d px py c hmem
    cases hmem
  | cons x xs ih =>
    intro d px py c hmem hpx hy1 hy2 hc hlen
    rw [List.foldl_cons]
    rcases List.mem_cons.mp hmem with heq | hmem'
    · have heq' : x = px / bs * bs := heq.symm
      subst heq'
      have hS := processBlock_establish width height bs bias d (px / bs * bs) y px py c
        (ownStart_le px bs) (lt_ownStart_add px bs width hbs hpx) hy1 hy2 hc hlen
      rcases foldX_getD width height bs bias y xs
          (processBlock width height bs bias d (px / bs * bs) y)
          ((py * width + px) * 4 + c) with h | h
      · rw [h]
        exact hS
      · exact h
    · refine ih (processBlock width height bs bias d x y) px py c hmem' hpx hy1 hy2 hc ?_
      rw [processBlock_length]
      exact hlen

lemma foldY_length (width height bs : ℕ) (bias : ℚ) (ys : List ℕ) :
    ∀ d : List ℕ,
      (ys.foldl (fun dy y => (blockStarts width bs).foldl
          (fun dx x => processBlock width height bs bias dx x y) dy) d).length =
        d.length := by
  induction ys with
  | nil => intro d; rfl
  | cons y ys ih =>
    intro d
    rw [List.foldl_cons, ih, foldX_length]

lemma foldY_getD (width height bs : ℕ) (bias : ℚ) (ys : List ℕ) :
    ∀ (d : List ℕ) (j : ℕ),
      (ys.foldl (fun dy y => (blockStarts width bs).foldl
          (fun dx x => processBlock width height bs bias dx x y) dy) d).getD j 0 =
          d.getD j 0 ∨
      ((ys.foldl (fun dy y => (blockStarts width bs).foldl
          (fun dx x => processBlock width height bs bias dx x y) dy) d).getD j 0 = 0 ∨
        (ys.foldl (fun dy y => (blockStarts width bs).foldl
          (fun dx x => processBlock width height bs bias dx x y) dy) d).getD j 0 = 255) := by
  induction ys with
  | nil => intro d j; exact Or.inl rfl
  | cons y ys ih =>
    intro d j
    rw [List.foldl_cons]
    rcases ih ((blockStarts width bs).foldl
        (fun dx x => processBlock width height bs bias dx x y) d) j with h | h
    · rcases foldX_getD width height bs bias y (blockStarts width bs) d j with h2 | h2
      · exact Or.inl (h.trans h2)
      · rw [h]
        exact Or.inr h2
    · exact Or.inr h

lemma foldY_alpha (width height bs : ℕ) (bias : ℚ) (ys : List ℕ) :
    ∀ (d : List ℕ) (j : ℕ), j % 4 = 3 →
      (ys.foldl (fun dy y => (blockStarts width bs).foldl
          (fun dx x => processBlock width height bs bias dx x y) dy) d).getD j 0 =
        d.getD j 0 := by
  induction ys with
  | nil => intro d j _; rfl
  | cons y ys ih =>
    intro d j hj
    rw [List.foldl_cons, ih _ j hj, foldX_alpha width height bs bias y _ d j hj]

lemma foldY_establish (width height bs : ℕ) (bias : ℚ) (hbs : 0 < bs) (ys : List ℕ) :
    ∀ (d : List ℕ) (px py c : ℕ), py / bs * bs ∈ ys → px < width → py < height → c < 3 →
      (py * width + px) * 4 + c < d.length →
      ((ys.foldl (fun dy y => (blockStarts width bs).foldl
          (fun dx x => processBlock width height bs bias dx x y) dy) d).getD
          ((py * width + px) * 4 + c) 0 = 0 ∨
        (ys.foldl (fun dy y => (blockStarts width bs).foldl
          (fun dx x => processBlock width height bs bias dx x y) dy) d).getD
          ((py * width + px) * 4 + c) 0 = 255) := by
  induction ys with
  | nil =>
    intro d px py c hmem
    cases hmem
  | cons y ys ih =>
    intro d px py c hmem hpx hpy hc hlen
    rw [List.foldl_cons]
    rcases List.mem_cons.mp hmem with heq | hmem'
    · have heq' : y = py / bs * bs := heq.symm
      subst heq'
      have hS := foldX_establish width height bs bias (py / bs * bs) hbs
        (blockStarts width bs) d px py c (blockStarts_mem width bs px hbs hpx) hpx
        (ownStart_le py bs) (lt_ownStart_add py bs height hbs hpy) hc hlen
      rcases foldY_getD width height bs bias ys
          ((blockStarts width bs).foldl
            (fun dx x => processBlock width height bs bias dx x (py / bs * bs)) d)
          ((py * width + px) * 4 + c) with h | h
      · rw [h]
        exact hS
      · exact h
    · refine ih ((blockStarts width bs).foldl
        (fun dx x => processBlock width height bs bias dx x y) d) px py c hmem' hpx hpy hc ?_
      rw [foldX_length]
      exact hlen

/-- Summary behavior of the block double loop: length preserved, alpha bytes
untouched, and every color byte of every canvas pixel left equal to 0 or
255. -/
lemma applySampledData_spec (width height bs : ℕ) (bias : ℚ) (hbs : 0 < bs) (d : List ℕ) :
    (applySampledData width height bs bias d).length = d.length ∧
    (∀ j, j % 4 = 3 → (applySampledData width height bs bias d).getD j 0 = d.getD j 0) ∧
    (∀ px py c, px < width → py < height → c < 3 → (py * width + px) * 4 + c < d.length →
      ((applySampledData width height bs bias d).getD ((py * width + px) * 4 + c) 0 = 0 ∨
        (applySampledData width height bs bias d).getD ((py * width + px) * 4 + c) 0 = 255)) := by
  refine ⟨foldY_length width height bs bias _ d, ?_, ?_⟩
  · intro j hj
    exact foldY_alpha width height bs bias _ d j hj
  · intro px py c hpx hpy hc hlen
    exact foldY_establish width height bs bias hbs _ d px py c
      (blockStarts_mem height bs py hbs hpy) hpx hpy hc hlen

/-- **C9.** After sampled halftone mode runs on any well-formed buffer (any
density, any threshold), every color channel of every canvas pixel equals 0
or 255 — each block's pattern covers all of its local indices and the blocks
tile the canvas — and alpha channels are never modified.  (A well-formed
`ImageData` buffer has exactly `4 * width * height` bytes; every such buffer
is `(List.range (4 * width * height)).map f` for some `f`.) -/
theorem claim_C9 (width height : ℕ) (f : ℕ → ℕ) (density threshold : ℚ) :
    (applySampledMonochrome
        (ImageDataM.mk ((List.range (4 * width * height)).map f) width height)
        density threshold).data.length = 4 * width * height ∧
    (∀ p : ℕ,
      (applySampledMonochrome
          (ImageDataM.mk ((List.range (4 * width * height)).map f) width height)
          density threshold).data.getD (4 * p + 3) 0 =
        ((List.range (4 * width * height)).map f).getD (4 * p + 3) 0) ∧
    (∀ (px : Fin width) (py : Fin height) (c : Fin 3),
      (applySampledMonochrome
          (ImageDataM.mk ((List.range (4 * width * height)).map f) width height)
          density threshold).data.getD
            (((py : ℕ) * width + (px : ℕ)) * 4 + (c : ℕ)) 0 = 0 ∨
      (applySampledMonochrome
          (ImageDataM.mk ((List.range (4 * width * height)).map f) width height)
          density threshold).data.getD
            (((py : ℕ) * width + (px : ℕ)) * 4 + (c : ℕ)) 0 = 255) := by
  have hbs : 0 < blockSizeOf density :=
    lt_of_lt_of_le (by norm_num) (blockSizeOf_ge_2 density)
  have hlen : ((List.range (4 * width * height)).map f).length = 4 * width * height := by
    rw [List.length_map, List.length_range]
  have hspec := applySampledData_spec width height (blockSizeOf density)
    ((((limitOf threshold : ℕ) : ℚ) - 170) / 255) hbs
    ((List.range (4 * width * height)).map f)
  refine ⟨hspec.1.trans hlen, ?_, ?_⟩
  · intro p
    exact hspec.2.1 (4 * p + 3) (by omega)
  · intro px py c
    have hc := c.isLt
    have hpx := px.isLt
    have hpy := py.isLt
    refine hspec.2.2 (px : ℕ) (py : ℕ) (c : ℕ) hpx hpy hc ?_
    have h4 : 4 * width * height = 4 * (width * height) := by ring
    have hk : (py : ℕ) * width + (px : ℕ) < width * height := by
      calc (py : ℕ) * width + (px : ℕ) < (py : ℕ) * width + width := by omega
        _ = ((py : ℕ) + 1) * width := by ring
        _ ≤ height * width := Nat.mul_le_mul_right _ (by omega)
        _ = width * height := Nat.mul_comm _ _
    rw [hlen]
    omega
